import Mathlib

/-!
Verification of the ingestion/extraction core of the `private-gpt` backend
(`bridgewell_gpt/components/ingest/ingest_component.py` and
`bridgewell_gpt/components/extraction/extraction_component.py`).

The Python code is shallowly embedded: dictionaries of JSON-like values
become the mutual inductive `Val`/`Fields` below, the nested `deep_update`
function is transcribed field by field, and the stateful writer loop of
`PipelineIngestComponent`, the background `save_task` phase writes, and
`ExtractionComponent.extract_document` become explicit state-passing
functions with fault oracles for the points where the Python code can
raise.
-/

namespace BridgewellGpt

mutual
/-- A JSON-like value as stored in the extraction `result` records.
`prim` abstracts every non-dict Python value (strings, numbers, `None`,
lists); `obj` is a Python `dict`, represented as an insertion-ordered
field sequence, mirroring Python 3.7+ dict ordering. -/
inductive Val : Type where
  | prim (s : String) : Val
  | obj (fields : Fields) : Val

inductive Fields : Type where
  | nil : Fields
  | fcons (key : String) (value : Val) (rest : Fields) : Fields
end

/-- Python `d.get(k)`: first (and in a real dict, only) binding of `k`. -/
def getKey : Fields → String → Option Val
  | .nil, _ => none
  | .fcons k v rest, key => if k = key then some v else getKey rest key

/-- Python `d[k] = v`: replace the binding of `k` in place, or append it. -/
def setKey : Fields → String → Val → Fields
  | .nil, key, v => .fcons key v .nil
  | .fcons k w rest, key, v =>
      if k = key then .fcons key v rest else .fcons k w (setKey rest key v)

/-- The key sequence of a dict. -/
def keys : Fields → List String
  | .nil => []
  | .fcons k _ rest => k :: keys rest

/-- Python `not d` for a dict: true exactly on the empty dict. -/
def isEmptyF : Fields → Bool
  | .nil => true
  | .fcons _ _ _ => false

mutual
/-- The function `deep_update(d, u)` from `ingest_component.py` (defined identically at
lines 295-306 and 668-680).  `deep_update_val` is the entry point
(`if not isinstance(u, dict): return d`), `deep_update_fields` the loop
`for k, v in u.items()`.  For a dict-valued `v` the base entry is replaced
wholesale unless it is itself a non-empty dict
(`if not isinstance(d.get(k), dict) or not d.get(k)`), in which case the
merge recurses; non-dict values always overwrite. -/
def deep_update_val (d : Fields) : Val → Fields
  | .prim _ => d
  | .obj ufields => deep_update_fields d ufields

def deep_update_fields (d : Fields) : Fields → Fields
  | .nil => d
  | .fcons k v rest =>
      match v with
      | .prim _ => deep_update_fields (setKey d k v) rest
      | .obj _ =>
          match getKey d k with
          | some (.obj df) =>
              if isEmptyF df then deep_update_fields (setKey d k v) rest
              else deep_update_fields (setKey d k (.obj (deep_update_val df v))) rest
          | some (.prim _) => deep_update_fields (setKey d k v) rest
          | none => deep_update_fields (setKey d k v) rest
end

mutual
/-- Well-formedness of an embedded Python value: every dict level has
pairwise distinct keys (true of every real `dict`). -/
def WFval : Val → Bool
  | .prim _ => true
  | .obj fs => WFfields fs

def WFfields : Fields → Bool
  | .nil => true
  | .fcons k v rest => !(decide (k ∈ keys rest)) && WFval v && WFfields rest
end

/-- Structural induction on `Fields` alone (the value components are not
traversed), used for the lemmas about `getKey`/`setKey`. -/
def fieldsInd {P : Fields → Prop} (hnil : P .nil)
    (hcons : ∀ k v rest, P rest → P (.fcons k v rest)) : ∀ fs, P fs
  | .nil => hnil
  | .fcons k v rest => hcons k v rest (fieldsInd hnil hcons rest)

example : deep_update_fields
    (.fcons "a" (.obj (.fcons "x" (.prim "1") .nil)) .nil)
    (.fcons "a" (.obj (.fcons "y" (.prim "2") .nil)) .nil)
    = .fcons "a" (.obj (.fcons "x" (.prim "1") (.fcons "y" (.prim "2") .nil))) .nil := rfl

example : WFfields (.fcons "a" (.prim "1") (.fcons "b" (.prim "2") .nil)) = true := by decide

/-! ### Lemmas about `getKey` and `setKey` -/

theorem getKey_setKey_self (d : Fields) (k : String) (v : Val) :
    getKey (setKey d k v) k = some v := by
  induction d using fieldsInd with
  | hnil => simp [setKey, getKey]
  | hcons k' w rest ih =>
      by_cases h : k' = k
      · simp [setKey, getKey, h]
      · simp [setKey, getKey, h, ih]

theorem getKey_setKey_ne (d : Fields) {k k' : String} (v : Val) (h : k' ≠ k) :
    getKey (setKey d k' v) k = getKey d k := by
  induction d using fieldsInd with
  | hnil => simp [setKey, getKey, h]
  | hcons k'' w rest ih =>
      by_cases h2 : k'' = k'
      · subst h2
        simp [setKey, getKey, h]
      · simp [setKey, getKey, h2, ih]

theorem setKey_eq_of_getKey {d : Fields} {k : String} {v : Val}
    (h : getKey d k = some v) : setKey d k v = d := by
  induction d using fieldsInd with
  | hnil => simp [getKey] at h
  | hcons k' w rest ih =>
      by_cases h2 : k' = k
      · subst h2
        simp [getKey] at h
        simp [setKey, h]
      · simp [getKey, h2] at h
        simp [setKey, h2, ih h]

theorem mem_keys_of_getKey {d : Fields} {k : String} {v : Val}
    (h : getKey d k = some v) : k ∈ keys d := by
  induction d using fieldsInd with
  | hnil => simp [getKey] at h
  | hcons k' w rest ih =>
      by_cases h2 : k' = k
      · simp [keys, h2]
      · simp [getKey, h2] at h
        simp [keys, ih h]

theorem getKey_eq_none_of_not_mem {d : Fields} {k : String}
    (h : k ∉ keys d) : getKey d k = none := by
  cases hg : getKey d k with
  | none => rfl
  | some v => exact absurd (mem_keys_of_getKey hg) h

theorem keys_setKey (d : Fields) (k : String) (v : Val) :
    keys (setKey d k v) = if k ∈ keys d then keys d else keys d ++ [k] := by
  induction d using fieldsInd with
  | hnil => simp [setKey, keys]
  | hcons k' w rest ih =>
      by_cases h : k' = k
      · subst h
        simp [setKey, keys]
      · have hne : ¬k = k' := fun hh => h hh.symm
        simp [setKey, keys, h, ih, hne]
        by_cases hm : k ∈ keys rest <;> simp [hm]

theorem isEmptyF_setKey (d : Fields) (k : String) (v : Val) :
    isEmptyF (setKey d k v) = false := by
  cases d with
  | nil => simp [setKey, isEmptyF]
  | fcons k' w rest =>
      by_cases h : k' = k <;> simp [setKey, isEmptyF, h]

/-- One pass of the `for k, v in u.items()` loop body of `deep_update`,
factored out for the proofs; `deep_update_fields d (.fcons k v rest) =
deep_update_fields (updateOne d k v) rest`. -/
def updateOne (d : Fields) (k : String) (v : Val) : Fields :=
  match v with
  | .prim _ => setKey d k v
  | .obj _ =>
      match getKey d k with
      | some (.obj df) =>
          if isEmptyF df then setKey d k v
          else setKey d k (.obj (deep_update_val df v))
      | some (.prim _) => setKey d k v
      | none => setKey d k v

theorem deep_update_fields_cons (d : Fields) (k : String) (v : Val) (rest : Fields) :
    deep_update_fields d (.fcons k v rest) = deep_update_fields (updateOne d k v) rest := by
  cases v with
  | prim s => rfl
  | obj vf =>
      cases hg : getKey d k with
      | none => simp [deep_update_fields, updateOne, hg]
      | some w =>
          cases w with
          | prim s => simp [deep_update_fields, updateOne, hg]
          | obj df =>
              by_cases he : isEmptyF df <;>
                simp [deep_update_fields, updateOne, hg, he]

theorem getKey_deep_update_fields_of_not_mem {k : String} :
    ∀ (uf : Fields), k ∉ keys uf → ∀ d, getKey (deep_update_fields d uf) k = getKey d k := by
  intro uf
  induction uf using fieldsInd with
  | hnil => intro _ d; rfl
  | hcons k' v rest ih =>
      intro hmem d
      have hk' : k' ≠ k := by
        intro h; exact hmem (by simp [keys, h])
      have hrest : k ∉ keys rest := fun h => hmem (by simp [keys, h])
      rw [deep_update_fields_cons, ih hrest]
      cases v with
      | prim s => simpa [updateOne] using getKey_setKey_ne d (Val.prim s) hk'
      | obj vf =>
          cases hg : getKey d k' with
          | none => simpa [updateOne, hg] using getKey_setKey_ne d (Val.obj vf) hk'
          | some w =>
              cases w with
              | prim s => simpa [updateOne, hg] using getKey_setKey_ne d (Val.obj vf) hk'
              | obj df =>
                  by_cases he : isEmptyF df <;>
                    simp [updateOne, hg, he, getKey_setKey_ne d _ hk']

/-- The value `deep_update` leaves at an overlay key, as a function of the
base's binding at that key. -/
def mergedAt (dv : Option Val) (v : Val) : Val :=
  match v, dv with
  | .obj _, some (.obj df) => if isEmptyF df then v else .obj (deep_update_val df v)
  | _, _ => v

theorem getKey_updateOne_ne (d : Fields) {k k' : String} (v : Val) (h : k' ≠ k) :
    getKey (updateOne d k' v) k = getKey d k := by
  cases v with
  | prim s => simpa [updateOne] using getKey_setKey_ne d (Val.prim s) h
  | obj vf =>
      cases hg : getKey d k' with
      | none => simpa [updateOne, hg] using getKey_setKey_ne d (Val.obj vf) h
      | some w =>
          cases w with
          | prim s => simpa [updateOne, hg] using getKey_setKey_ne d (Val.obj vf) h
          | obj df =>
              by_cases he : isEmptyF df <;>
                simp [updateOne, hg, he, getKey_setKey_ne d _ h]

theorem getKey_updateOne_self (d : Fields) (k : String) (v : Val) :
    getKey (updateOne d k v) k = some (mergedAt (getKey d k) v) := by
  cases v with
  | prim s => simp [updateOne, mergedAt, getKey_setKey_self]
  | obj vf =>
      cases hg : getKey d k with
      | none => simp [updateOne, mergedAt, hg, getKey_setKey_self]
      | some w =>
          cases w with
          | prim s => simp [updateOne, mergedAt, hg, getKey_setKey_self]
          | obj df =>
              by_cases he : isEmptyF df <;>
                simp [updateOne, mergedAt, hg, he, getKey_setKey_self]

theorem getKey_deep_update_fields_first {k : String} {v : Val} :
    ∀ uf : Fields, (keys uf).Nodup → getKey uf k = some v →
      ∀ d, getKey (deep_update_fields d uf) k = some (mergedAt (getKey d k) v) := by
  intro uf
  induction uf using fieldsInd with
  | hnil => intro _ h; simp [getKey] at h
  | hcons k' v' rest ih =>
      intro hnd hget d
      rw [deep_update_fields_cons]
      by_cases h : k' = k
      · subst h
        simp [getKey] at hget
        subst hget
        have hnotin : k' ∉ keys rest := by
          simp [keys, List.nodup_cons] at hnd
          exact hnd.1
        rw [getKey_deep_update_fields_of_not_mem rest hnotin,
          getKey_updateOne_self]
      · have hget' : getKey rest k = some v := by simpa [getKey, h] using hget
        have hnd' : (keys rest).Nodup := by
          simp [keys, List.nodup_cons] at hnd
          exact hnd.2
        rw [ih hnd' hget', getKey_updateOne_ne d v' h]

/-- C2: at each key `k` of an overlay `u` (a real dict: no duplicate keys),
`deep_update(d, u)` produces the recursive merge of `d[k]` and `u[k]` when
`u[k]` is a dict and `d[k]` is a non-empty dict; `u[k]` wholesale when
`u[k]` is a dict but `d` holds no dict (or an empty one) at `k`; and
`u[k]` itself when `u[k]` is not a dict. -/
theorem C2_deep_update_pointwise (d uf : Fields) (k : String) (v : Val)
    (hnd : (keys uf).Nodup) (hget : getKey uf k = some v) :
    (∀ s, v = .prim s → getKey (deep_update_fields d uf) k = some v) ∧
    (∀ vf, v = .obj vf →
      ((∀ df, getKey d k = some (.obj df) → isEmptyF df = false →
          getKey (deep_update_fields d uf) k =
            some (.obj (deep_update_fields df vf))) ∧
       ((∀ df, getKey d k = some (.obj df) → isEmptyF df = true) →
          getKey (deep_update_fields d uf) k = some v))) := by
  have hmain := getKey_deep_update_fields_first uf hnd hget d
  constructor
  · intro s hs
    subst hs
    rw [hmain]
    cases hg : getKey d k with
    | none => simp [mergedAt]
    | some w => cases w <;> simp [mergedAt]
  · intro vf hv
    subst hv
    constructor
    · intro df hdf hne
      rw [hmain, hdf]
      simp [mergedAt, hne, deep_update_val]
    · intro hall
      rw [hmain]
      cases hg : getKey d k with
      | none => simp [mergedAt]
      | some w =>
          cases w with
          | prim s => simp [mergedAt]
          | obj df => simp [mergedAt, hall df hg]

/-- A base record with a populated nested section, used as concrete input. -/
def c2Base : Fields := .fcons "a" (.obj (.fcons "x" (.prim "1") .nil)) .nil

/-- An overlay with a nested section at an existing key plus a scalar key. -/
def c2Overlay : Fields :=
  .fcons "a" (.obj (.fcons "y" (.prim "2") .nil)) (.fcons "b" (.prim "3") .nil)

theorem C2_deep_update_pointwise_witness :
    getKey (deep_update_fields c2Base c2Overlay) "a" =
      some (.obj (deep_update_fields (.fcons "x" (.prim "1") .nil)
        (.fcons "y" (.prim "2") .nil))) :=
  ((C2_deep_update_pointwise c2Base c2Overlay "a"
      (.obj (.fcons "y" (.prim "2") .nil)) (by decide) rfl).2
    (.fcons "y" (.prim "2") .nil) rfl).1 (.fcons "x" (.prim "1") .nil) rfl rfl

/-! ### Well-formedness is preserved by `deep_update`, and `deep_update`
is idempotent in the overlay (claim C4). -/

theorem WFfields_cons_iff (k : String) (v : Val) (rest : Fields) :
    WFfields (.fcons k v rest) = true ↔
      k ∉ keys rest ∧ WFval v = true ∧ WFfields rest = true := by
  simp [WFfields, Bool.and_eq_true, Bool.not_eq_true', decide_eq_false_iff_not,
    and_assoc]

theorem WFval_getKey {d : Fields} {k : String} {v : Val}
    (hd : WFfields d = true) (h : getKey d k = some v) : WFval v = true := by
  induction d using fieldsInd with
  | hnil => simp [getKey] at h
  | hcons k' w rest ih =>
      rw [WFfields_cons_iff] at hd
      by_cases h2 : k' = k
      · simp [getKey, h2] at h
        subst h
        exact hd.2.1
      · simp [getKey, h2] at h
        exact ih hd.2.2 h

theorem WFfields_setKey {d : Fields} (k : String) {v : Val}
    (hd : WFfields d = true) (hv : WFval v = true) :
    WFfields (setKey d k v) = true := by
  induction d using fieldsInd with
  | hnil => simp [setKey, WFfields_cons_iff, keys, WFfields, hv]
  | hcons k' w rest ih =>
      rw [WFfields_cons_iff] at hd
      by_cases h2 : k' = k
      · subst h2
        simp [setKey, WFfields_cons_iff, hd.1, hv, hd.2.2]
      · simp only [setKey, h2, if_false]
        rw [WFfields_cons_iff]
        refine ⟨?_, hd.2.1, ih hd.2.2⟩
        rw [keys_setKey]
        by_cases hm : k ∈ keys rest
        · simpa [hm] using hd.1
        · simp only [hm, if_false, List.mem_append, List.mem_singleton]
          intro hor
          rcases hor with h | h
          · exact hd.1 h
          · exact h2 h

theorem isEmptyF_updateOne (d : Fields) (k : String) (v : Val) :
    isEmptyF (updateOne d k v) = false := by
  cases v with
  | prim s => simp [updateOne, isEmptyF_setKey]
  | obj vf =>
      cases hg : getKey d k with
      | none => simp [updateOne, hg, isEmptyF_setKey]
      | some w =>
          cases w with
          | prim s => simp [updateOne, hg, isEmptyF_setKey]
          | obj df =>
              by_cases he : isEmptyF df <;>
                simp [updateOne, hg, he, isEmptyF_setKey]

theorem isEmptyF_deep_update_fields :
    ∀ (uf d : Fields), isEmptyF d = false →
      isEmptyF (deep_update_fields d uf) = false := by
  intro uf
  induction uf using fieldsInd with
  | hnil => intro d h; exact h
  | hcons k v rest ih =>
      intro d _
      rw [deep_update_fields_cons]
      exact ih _ (isEmptyF_updateOne d k v)

theorem sizeOf_bounds {k : String} {v : Val} {rest : Fields} {n : Nat}
    (h : sizeOf (Fields.fcons k v rest) ≤ n + 1) :
    sizeOf v ≤ n ∧ sizeOf rest ≤ n := by
  simp only [Fields.fcons.sizeOf_spec] at h
  omega

theorem sizeOf_obj_le {vf : Fields} {n : Nat}
    (h : sizeOf (Val.obj vf) ≤ n) : sizeOf vf ≤ n := by
  simp only [Val.obj.sizeOf_spec] at h
  omega

/-- Merging a dict into a base that already binds every overlay key to the
very same value changes nothing (the self-absorption core of C4). -/
theorem deep_update_fields_self_absorb :
    ∀ (n : Nat) (uf : Fields), sizeOf uf ≤ n → ∀ d : Fields,
      WFfields uf = true →
      (∀ k v, getKey uf k = some v → getKey d k = some v) →
      deep_update_fields d uf = d := by
  intro n
  induction n with
  | zero =>
      intro uf h
      cases uf with
      | nil => intro d _ _; rfl
      | fcons k v rest => simp [Fields.fcons.sizeOf_spec] at h
  | succ n ih =>
      intro uf hsz d hwf hsub
      cases uf with
      | nil => rfl
      | fcons k v rest =>
          rw [WFfields_cons_iff] at hwf
          obtain ⟨hsv, hsr⟩ := sizeOf_bounds hsz
          have hgd : getKey d k = some v := hsub k v (by simp [getKey])
          have hones : updateOne d k v = d := by
            cases v with
            | prim s => simpa [updateOne] using setKey_eq_of_getKey hgd
            | obj vf =>
                by_cases he : isEmptyF vf
                · simp [updateOne, hgd, he]
                  exact setKey_eq_of_getKey hgd
                · simp [updateOne, hgd, he, deep_update_val]
                  have hself : deep_update_fields vf vf = vf :=
                    ih vf (sizeOf_obj_le hsv) vf
                      (by simpa [WFval] using hwf.2.1) (fun _ _ h => h)
                  rw [hself]
                  exact setKey_eq_of_getKey hgd
          rw [deep_update_fields_cons, hones]
          refine ih rest hsr d hwf.2.2 ?_
          intro k' v' h'
          have hk' : k ≠ k' := by
            intro hkk
            exact hwf.1 (hkk ▸ mem_keys_of_getKey h')
          exact hsub k' v' (by simp [getKey, hk', h'])

/-- The merge `deep_update` preserves well-formedness of the base dict. -/
theorem WFfields_deep_update_fields :
    ∀ (n : Nat) (uf : Fields), sizeOf uf ≤ n → ∀ d : Fields,
      WFfields d = true → WFfields uf = true →
      WFfields (deep_update_fields d uf) = true := by
  intro n
  induction n with
  | zero =>
      intro uf h
      cases uf with
      | nil => intro d hd _; exact hd
      | fcons k v rest => simp [Fields.fcons.sizeOf_spec] at h
  | succ n ih =>
      intro uf hsz d hd hwf
      cases uf with
      | nil => exact hd
      | fcons k v rest =>
          rw [WFfields_cons_iff] at hwf
          obtain ⟨hsv, hsr⟩ := sizeOf_bounds hsz
          rw [deep_update_fields_cons]
          refine ih rest hsr _ ?_ hwf.2.2
          cases v with
          | prim s => exact WFfields_setKey k hd (by simp [WFval])
          | obj vf =>
              cases hg : getKey d k with
              | none =>
                  simp only [updateOne, hg]
                  exact WFfields_setKey k hd hwf.2.1
              | some w =>
                  cases w with
                  | prim s =>
                      simp only [updateOne, hg]
                      exact WFfields_setKey k hd hwf.2.1
                  | obj df =>
                      by_cases he : isEmptyF df
                      · simp only [updateOne, hg, he, if_true]
                        exact WFfields_setKey k hd hwf.2.1
                      · simp only [updateOne, hg, he, if_false]
                        refine WFfields_setKey k hd ?_
                        have hdf : WFfields df = true := by
                          simpa [WFval] using WFval_getKey hd hg
                        simpa [WFval, deep_update_val] using
                          ih vf (sizeOf_obj_le hsv) df hdf
                            (by simpa [WFval] using hwf.2.1)

/-- Applying the same well-formed overlay a second time is a no-op. -/
theorem deep_update_fields_idem_aux :
    ∀ (n : Nat) (uf : Fields), sizeOf uf ≤ n → ∀ d : Fields,
      WFfields d = true → WFfields uf = true →
      deep_update_fields (deep_update_fields d uf) uf = deep_update_fields d uf := by
  intro n
  induction n with
  | zero =>
      intro uf h
      cases uf with
      | nil => intro d _ _; rfl
      | fcons k v rest => simp [Fields.fcons.sizeOf_spec] at h
  | succ n ih =>
      intro uf hsz d hd hwf
      cases uf with
      | nil => rfl
      | fcons k v rest =>
          rw [WFfields_cons_iff] at hwf
          obtain ⟨hsv, hsr⟩ := sizeOf_bounds hsz
          have hd1 : WFfields (updateOne d k v) = true := by
            cases v with
            | prim s => exact WFfields_setKey k hd (by simp [WFval])
            | obj vf =>
                cases hg : getKey d k with
                | none =>
                    simp only [updateOne, hg]
                    exact WFfields_setKey k hd hwf.2.1
                | some w =>
                    cases w with
                    | prim s =>
                        simp only [updateOne, hg]
                        exact WFfields_setKey k hd hwf.2.1
                    | obj df =>
                        by_cases he : isEmptyF df
                        · simp only [updateOne, hg, he, if_true]
                          exact WFfields_setKey k hd hwf.2.1
                        · simp only [updateOne, hg, he, if_false]
                          refine WFfields_setKey k hd ?_
                          have hdf : WFfields df = true := by
                            simpa [WFval] using WFval_getKey hd hg
                          simpa [WFval, deep_update_val] using
                            WFfields_deep_update_fields (sizeOf vf) vf le_rfl df hdf
                              (by simpa [WFval] using hwf.2.1)
          have hX : getKey (deep_update_fields (updateOne d k v) rest) k =
              some (mergedAt (getKey d k) v) := by
            rw [getKey_deep_update_fields_of_not_mem rest hwf.1,
              getKey_updateOne_self]
          have hfix : updateOne (deep_update_fields (updateOne d k v) rest) k v =
              deep_update_fields (updateOne d k v) rest := by
            cases v with
            | prim s =>
                have hXv : getKey (deep_update_fields (updateOne d k (Val.prim s)) rest) k =
                    some (Val.prim s) := by
                  rw [hX]
                  cases hg : getKey d k with
                  | none => simp [mergedAt]
                  | some w => cases w <;> simp [mergedAt]
                simpa [updateOne] using setKey_eq_of_getKey hXv
            | obj vf =>
                have hwhole : ∀ X : Fields, getKey X k = some (Val.obj vf) →
                    updateOne X k (Val.obj vf) = X := by
                  intro X hXv
                  by_cases he : isEmptyF vf
                  · simp only [updateOne, hXv, he, if_true]
                    exact setKey_eq_of_getKey hXv
                  · simp only [updateOne, hXv, he, if_false]
                    have hself : deep_update_fields vf vf = vf :=
                      deep_update_fields_self_absorb (sizeOf vf) vf le_rfl vf
                        (by simpa [WFval] using hwf.2.1) (fun _ _ h => h)
                    simp only [deep_update_val, hself]
                    exact setKey_eq_of_getKey hXv
                cases hg : getKey d k with
                | none => exact hwhole _ (by rw [hX, hg]; simp [mergedAt])
                | some w =>
                    cases w with
                    | prim s => exact hwhole _ (by rw [hX, hg]; simp [mergedAt])
                    | obj df =>
                        by_cases he : isEmptyF df
                        · exact hwhole _ (by rw [hX, hg]; simp [mergedAt, he])
                        · have hdf : WFfields df = true := by
                            simpa [WFval] using WFval_getKey hd hg
                          have hMne : isEmptyF (deep_update_fields df vf) = false := by
                            cases df with
                            | nil => simp [isEmptyF] at he
                            | fcons a b c =>
                                exact isEmptyF_deep_update_fields vf _ (by simp [isEmptyF])
                          have hMidem :
                              deep_update_fields (deep_update_fields df vf) vf =
                                deep_update_fields df vf :=
                            ih vf (sizeOf_obj_le hsv) df hdf
                              (by simpa [WFval] using hwf.2.1)
                          have hmerge : ∀ X : Fields,
                              getKey X k = some (Val.obj (deep_update_fields df vf)) →
                              updateOne X k (Val.obj vf) = X := by
                            intro X hXv
                            simp only [updateOne, hXv, hMne, if_false, deep_update_val,
                              hMidem]
                            exact setKey_eq_of_getKey hXv
                          exact hmerge _ (by rw [hX, hg]; simp [mergedAt, he, deep_update_val])
          calc deep_update_fields (deep_update_fields d (.fcons k v rest)) (.fcons k v rest)
              = deep_update_fields
                  (updateOne (deep_update_fields (updateOne d k v) rest) k v) rest := by
                rw [deep_update_fields_cons, deep_update_fields_cons]
            _ = deep_update_fields (deep_update_fields (updateOne d k v) rest) rest := by
                rw [hfix]
            _ = deep_update_fields (updateOne d k v) rest :=
                ih rest hsr _ hd1 hwf.2.2
            _ = deep_update_fields d (.fcons k v rest) := by
                rw [deep_update_fields_cons]

/-- C4: `deep_merge` (the code's `deep_update`) is idempotent in the
overlay: for real dicts (no duplicate keys at any level),
`deep_update(deep_update(b, o), o) == deep_update(b, o)`. -/
theorem C4_deep_merge_idempotent (b : Fields) (o : Val)
    (hb : WFfields b = true) (ho : WFval o = true) :
    deep_update_val (deep_update_val b o) o = deep_update_val b o := by
  cases o with
  | prim s => rfl
  | obj ofields =>
      simp only [deep_update_val]
      exact deep_update_fields_idem_aux (sizeOf ofields) ofields le_rfl b hb
        (by simpa [WFval] using ho)

theorem C4_deep_merge_idempotent_witness :
    deep_update_val (deep_update_val c2Base (.obj c2Overlay)) (.obj c2Overlay) =
      deep_update_val c2Base (.obj c2Overlay) :=
  C4_deep_merge_idempotent c2Base (.obj c2Overlay) (by decide) (by decide)

/-! ### Claim C3: reconciliation batching -/

/-- The generator `batch_fields(fields, batch_size)` from
`SimpleIngestComponent.save_task` (lines 279-281):
`for i in range(0, len(fields), batch_size): yield fields[i:i+batch_size]`.
`range(0, n, step)` yields the indices `i * step` for
`i < ceil(n / step)`, and the slice `fields[i : i + bs]` drops `i`
elements and takes at most `bs`. -/
def batch_fields (fields : List String) (batch_size : Nat) : List (List String) :=
  (List.range ((fields.length + batch_size - 1) / batch_size)).map
    (fun i => (fields.drop (i * batch_size)).take batch_size)

/-- The sequence of `_extract_with_rag` calls issued by
`SimpleIngestComponent.save_task` (lines 283-293): one call per batch of
at most 10 missing fields (`batch_size = 10`). -/
def simpleRagCalls (missing_fields : List String) : List (List String) :=
  batch_fields missing_fields 10

/-- The accumulator `all_rag_results` after the batch loop of `SimpleIngestComponent`
(lines 286-307): starts as `{}` and folds each batch's query-service
result in with `deep_update`.  `ragResult` stands for the external
query service `_extract_with_rag`. -/
def simpleAllRagResults (ragResult : List String → Fields)
    (missing_fields : List String) : Fields :=
  (simpleRagCalls missing_fields).foldl
    (fun acc batch => deep_update_fields acc (ragResult batch)) .nil

/-- The record `final_data` as written back by `SimpleIngestComponent` (line 312):
`deep_update(extraction_result, all_rag_results)`. -/
def simpleFinalData (extraction_result : Fields)
    (ragResult : List String → Fields) (missing_fields : List String) : Fields :=
  deep_update_fields extraction_result
    (simpleAllRagResults ragResult missing_fields)

/-- The reconciliation of `ParallelizedIngestComponent.save_task`
(lines 653-661): a single `_extract_with_rag` call carrying every
missing field at once — no batching loop exists in this variant. -/
def parallelRagCalls (missing_fields : List String) : List (List String) :=
  [missing_fields]

/-- Twenty-five distinct missing-field names. -/
def fields25 : List String := (List.range 25).map toString

/-- C3 counterexample: with 25 missing fields,
`ParallelizedIngestComponent` — an orchestrator variant that performs
reconciliation — issues exactly one query-service call carrying all 25
fields, not 3 calls of at most 10. -/
theorem C3_counterexample :
    parallelRagCalls fields25 = [fields25] ∧
    fields25.length = 25 ∧
    ¬ ((parallelRagCalls fields25).length = 3 ∧
       ∀ b ∈ parallelRagCalls fields25, b.length ≤ 10) := by
  refine ⟨rfl, by simp [fields25], ?_⟩
  intro hcl
  simp [parallelRagCalls] at hcl

theorem batch_fields_ten_cons (fields : List String) (h : fields ≠ []) :
    batch_fields fields 10 =
      fields.take 10 :: batch_fields (fields.drop 10) 10 := by
  have hlen : 0 < fields.length := List.length_pos.mpr h
  have hceil : (fields.length + 10 - 1) / 10 =
      ((fields.drop 10).length + 10 - 1) / 10 + 1 := by
    rw [List.length_drop]
    omega
  unfold batch_fields
  rw [hceil, List.range_succ_eq_map, List.map_cons, List.map_map]
  refine congrArg₂ List.cons (by simp) ?_
  refine List.map_congr_left ?_
  intro i _
  show (fields.drop (Nat.succ i * 10)).take 10 =
    ((fields.drop 10).drop (i * 10)).take 10
  rw [List.drop_drop]
  congr 2
  omega

theorem batch_fields_ten_flatten :
    ∀ (n : Nat) (fields : List String), fields.length ≤ n →
      (batch_fields fields 10).flatten = fields := by
  intro n
  induction n with
  | zero =>
      intro fields h
      have : fields = [] := List.eq_nil_of_length_eq_zero (Nat.le_zero.mp h)
      subst this
      rfl
  | succ n ih =>
      intro fields h
      by_cases hne : fields = []
      · subst hne; rfl
      · have hlen : 0 < fields.length := List.length_pos.mpr hne
        rw [batch_fields_ten_cons fields hne, List.flatten_cons]
        rw [ih (fields.drop 10) (by rw [List.length_drop]; omega)]
        exact List.take_append_drop 10 fields

/-! Keys present in an overlay (or already in the accumulator) survive
every later `deep_update`. -/

theorem mem_keys_setKey_self (d : Fields) (k : String) (v : Val) :
    k ∈ keys (setKey d k v) := by
  rw [keys_setKey]
  by_cases hm : k ∈ keys d <;> simp [hm]

theorem mem_keys_setKey_of_mem {d : Fields} {k' : String} (k : String) (v : Val)
    (h : k' ∈ keys d) : k' ∈ keys (setKey d k v) := by
  rw [keys_setKey]
  by_cases hm : k ∈ keys d <;> simp [hm, h]

theorem mem_keys_updateOne_self (d : Fields) (k : String) (v : Val) :
    k ∈ keys (updateOne d k v) := by
  cases v with
  | prim s => exact mem_keys_setKey_self d k _
  | obj vf =>
      cases hg : getKey d k with
      | none => simp only [updateOne, hg]; exact mem_keys_setKey_self d k _
      | some w =>
          cases w with
          | prim s => simp only [updateOne, hg]; exact mem_keys_setKey_self d k _
          | obj df =>
              by_cases he : isEmptyF df <;>
                simp only [updateOne, hg, he, if_true, if_false] <;>
                exact mem_keys_setKey_self d k _

theorem mem_keys_updateOne_of_mem {d : Fields} {k' : String} (k : String) (v : Val)
    (h : k' ∈ keys d) : k' ∈ keys (updateOne d k v) := by
  cases v with
  | prim s => exact mem_keys_setKey_of_mem k _ h
  | obj vf =>
      cases hg : getKey d k with
      | none => simp only [updateOne, hg]; exact mem_keys_setKey_of_mem k _ h
      | some w =>
          cases w with
          | prim s => simp only [updateOne, hg]; exact mem_keys_setKey_of_mem k _ h
          | obj df =>
              by_cases he : isEmptyF df <;>
                simp only [updateOne, hg, he, if_true, if_false] <;>
                exact mem_keys_setKey_of_mem k _ h

theorem mem_keys_deep_update_fields_of_mem_base :
    ∀ (uf d : Fields) {k : String}, k ∈ keys d →
      k ∈ keys (deep_update_fields d uf) := by
  intro uf
  induction uf using fieldsInd with
  | hnil => intro d k h; exact h
  | hcons k' v rest ih =>
      intro d k h
      rw [deep_update_fields_cons]
      exact ih _ (mem_keys_updateOne_of_mem k' v h)

theorem mem_keys_deep_update_fields_of_mem_overlay :
    ∀ (uf d : Fields) {k : String}, k ∈ keys uf →
      k ∈ keys (deep_update_fields d uf) := by
  intro uf
  induction uf using fieldsInd with
  | hnil => intro d k h; simp [keys] at h
  | hcons k' v rest ih =>
      intro d k h
      rw [deep_update_fields_cons]
      rcases (by simpa [keys] using h : k = k' ∨ k ∈ keys rest) with h | h
      · subst h
        exact mem_keys_deep_update_fields_of_mem_base rest _
          (mem_keys_updateOne_self d k v)
      · exact ih _ h

/-- A record holds the leaf field path `sec.fld`: its `sec` entry is a
nested mapping with a `fld` key. -/
def hasLeaf (r : Fields) (sec fld : String) : Prop :=
  ∃ sf, getKey r sec = some (.obj sf) ∧ fld ∈ keys sf

/-- Every top-level (section) value of the record is itself a dict. -/
def sectionsObj : Fields → Bool
  | .nil => true
  | .fcons _ v rest =>
      (match v with
       | .obj _ => true
       | .prim _ => false) && sectionsObj rest

/-- Modelled from the spec: the shape of a `RAGQueryService` /
`_extract_with_rag` result — that code lives outside `src/`, and the
spec describes it as `query_fields(doc_id, field_paths, config) ->
nested mapping of field_path -> value` that "may omit fields it cannot
answer": a real dict (distinct keys) mapping each section to a nested
field-to-value mapping. -/
def specRagResultShaped (r : Fields) : Bool := WFfields r && sectionsObj r

theorem specRagResultShaped_decomp {r : Fields}
    (h : specRagResultShaped r = true) :
    WFfields r = true ∧ sectionsObj r = true := by
  simpa [specRagResultShaped, Bool.and_eq_true] using h

theorem keys_nodup_of_WFfields : ∀ {r : Fields}, WFfields r = true →
    (keys r).Nodup := by
  intro r
  induction r using fieldsInd with
  | hnil => intro _; simp [keys]
  | hcons k v rest ih =>
      intro h
      rw [WFfields_cons_iff] at h
      simp only [keys, List.nodup_cons]
      exact ⟨h.1, ih h.2.2⟩

theorem getKey_isSome_of_mem {d : Fields} {k : String} (h : k ∈ keys d) :
    ∃ v, getKey d k = some v := by
  induction d using fieldsInd with
  | hnil => simp [keys] at h
  | hcons k' w rest ih =>
      by_cases h2 : k' = k
      · exact ⟨w, by simp [getKey, h2]⟩
      · have hr : k ∈ keys rest := by
          rcases (by simpa [keys] using h : k = k' ∨ k ∈ keys rest) with hh | hh
          · exact absurd hh.symm h2
          · exact hh
        obtain ⟨v, hv⟩ := ih hr
        exact ⟨v, by simp [getKey, h2, hv]⟩

theorem sectionsObj_getKey : ∀ {r : Fields} {k : String} {v : Val},
    sectionsObj r = true → getKey r k = some v → ∃ af, v = .obj af := by
  intro r
  induction r using fieldsInd with
  | hnil => intro k v _ h; simp [getKey] at h
  | hcons k' w rest ih =>
      intro k v hs hg
      cases w with
      | prim s => simp [sectionsObj] at hs
      | obj af =>
          simp only [sectionsObj, Bool.true_and] at hs
          by_cases h2 : k' = k
          · simp [getKey, h2] at hg
            exact ⟨af, hg.symm⟩
          · simp [getKey, h2] at hg
            exact ih hs hg

theorem isEmptyF_eq_false_of_mem_keys {sf : Fields} {f : String}
    (h : f ∈ keys sf) : isEmptyF sf = false := by
  cases sf with
  | nil => simp [keys] at h
  | fcons a b c => rfl

/-- A leaf path present in the overlay survives `deep_update`. -/
theorem hasLeaf_deep_update_of_overlay {d uf : Fields} {sec fld : String}
    {af : Fields} (hnd : (keys uf).Nodup)
    (hg : getKey uf sec = some (.obj af)) (hf : fld ∈ keys af) :
    hasLeaf (deep_update_fields d uf) sec fld := by
  have hmain := getKey_deep_update_fields_first uf hnd hg d
  cases hgd : getKey d sec with
  | none =>
      refine ⟨af, ?_, hf⟩
      rw [hmain, hgd]
      simp [mergedAt]
  | some w =>
      cases w with
      | prim s =>
          refine ⟨af, ?_, hf⟩
          rw [hmain, hgd]
          simp [mergedAt]
      | obj df =>
          by_cases he : isEmptyF df
          · refine ⟨af, ?_, hf⟩
            rw [hmain, hgd]
            simp [mergedAt, he]
          · refine ⟨deep_update_fields df af, ?_,
              mem_keys_deep_update_fields_of_mem_overlay af df hf⟩
            rw [hmain, hgd]
            simp [mergedAt, he, deep_update_val]

/-- A leaf path present in the base survives a `deep_update` with any
overlay whose section values are dicts. -/
theorem hasLeaf_deep_update_of_base {d uf : Fields} {sec fld : String}
    (hshape : specRagResultShaped uf = true) (h : hasLeaf d sec fld) :
    hasLeaf (deep_update_fields d uf) sec fld := by
  obtain ⟨sf, hgd, hf⟩ := h
  obtain ⟨hwf, hso⟩ := specRagResultShaped_decomp hshape
  cases hgu : getKey uf sec with
  | none =>
      have hnm : sec ∉ keys uf := by
        intro hm
        obtain ⟨v, hv⟩ := getKey_isSome_of_mem hm
        rw [hv] at hgu
        cases hgu
      exact ⟨sf, by rw [getKey_deep_update_fields_of_not_mem uf hnm d, hgd], hf⟩
  | some v =>
      obtain ⟨af, rfl⟩ := sectionsObj_getKey hso hgu
      have hmain := getKey_deep_update_fields_first uf
        (keys_nodup_of_WFfields hwf) hgu d
      have hne : isEmptyF sf = false := isEmptyF_eq_false_of_mem_keys hf
      refine ⟨deep_update_fields sf af, ?_,
        mem_keys_deep_update_fields_of_mem_base af sf hf⟩
      rw [hmain, hgd]
      simp [mergedAt, hne, deep_update_val]

theorem hasLeaf_rag_foldl_of_acc (ragResult : List String → Fields) :
    ∀ (batches : List (List String)) (acc : Fields) {sec fld : String},
      (∀ b ∈ batches, specRagResultShaped (ragResult b) = true) →
      hasLeaf acc sec fld →
      hasLeaf (batches.foldl
        (fun a c => deep_update_fields a (ragResult c)) acc) sec fld := by
  intro batches
  induction batches with
  | nil => intro acc sec fld _ h; exact h
  | cons b0 rest ih =>
      intro acc sec fld hsh h
      exact ih _ (fun b hb => hsh b (List.mem_cons_of_mem b0 hb))
        (hasLeaf_deep_update_of_base (hsh b0 (List.mem_cons_self b0 rest)) h)

theorem hasLeaf_rag_foldl_of_batch (ragResult : List String → Fields) :
    ∀ (batches : List (List String)) (acc : Fields)
      {sec fld : String} {b : List String} {af : Fields},
      (∀ c ∈ batches, specRagResultShaped (ragResult c) = true) →
      b ∈ batches →
      getKey (ragResult b) sec = some (.obj af) → fld ∈ keys af →
      hasLeaf (batches.foldl
        (fun a c => deep_update_fields a (ragResult c)) acc) sec fld := by
  intro batches
  induction batches with
  | nil => intro acc _ _ _ _ _ hb _ _; simp at hb
  | cons b0 rest ih =>
      intro acc sec fld b af hsh hb hg hf
      rcases List.mem_cons.mp hb with h | h
      · subst h
        refine hasLeaf_rag_foldl_of_acc ragResult rest _
          (fun c hc => hsh c (List.mem_cons_of_mem b hc)) ?_
        exact hasLeaf_deep_update_of_overlay
          (keys_nodup_of_WFfields
            (specRagResultShaped_decomp (hsh b (List.mem_cons_self b rest))).1)
          hg hf
      · exact ih _ (fun c hc => hsh c (List.mem_cons_of_mem b0 hc)) h hg hf

theorem keys_nodup_setKey {d : Fields} (k : String) (v : Val)
    (h : (keys d).Nodup) : (keys (setKey d k v)).Nodup := by
  rw [keys_setKey]
  by_cases hm : k ∈ keys d
  · simpa [hm] using h
  · simp only [hm, if_false]
    rw [List.nodup_append]
    exact ⟨h, List.nodup_singleton k, by simpa [List.disjoint_singleton] using hm⟩

theorem keys_nodup_updateOne {d : Fields} (k : String) (v : Val)
    (h : (keys d).Nodup) : (keys (updateOne d k v)).Nodup := by
  cases v with
  | prim s => exact keys_nodup_setKey k _ h
  | obj vf =>
      cases hg : getKey d k with
      | none => simp only [updateOne, hg]; exact keys_nodup_setKey k _ h
      | some w =>
          cases w with
          | prim s => simp only [updateOne, hg]; exact keys_nodup_setKey k _ h
          | obj df =>
              by_cases he : isEmptyF df <;>
                simp only [updateOne, hg, he, if_true, if_false] <;>
                exact keys_nodup_setKey k _ h

theorem keys_nodup_deep_update_fields :
    ∀ (uf d : Fields), (keys d).Nodup →
      (keys (deep_update_fields d uf)).Nodup := by
  intro uf
  induction uf using fieldsInd with
  | hnil => intro d h; exact h
  | hcons k v rest ih =>
      intro d h
      rw [deep_update_fields_cons]
      exact ih _ (keys_nodup_updateOne k v h)

theorem keys_nodup_rag_foldl (ragResult : List String → Fields) :
    ∀ (batches : List (List String)) (acc : Fields), (keys acc).Nodup →
      (keys (batches.foldl
        (fun a c => deep_update_fields a (ragResult c)) acc)).Nodup := by
  intro batches
  induction batches with
  | nil => intro acc h; exact h
  | cons b rest ih =>
      intro acc h
      exact ih _ (keys_nodup_deep_update_fields _ _ h)

/-- C3 (amended): only `SimpleIngestComponent` batches the
retrieval-augmented reconciliation queries — at most 10 fields per call,
exactly 3 calls for 25 missing fields, every missing field covered by
exactly the concatenation of the batches, and the final merged record
written back contains every field returned across the batches: each
`section.field` leaf path present in any batch's result (results shaped
as the spec describes the query service's output, nested mappings of
field_path to value) is present in `final_data`.
`ParallelizedIngestComponent`, the other orchestrator variant that
performs reconciliation, issues a single unbatched call carrying all
missing fields. -/
theorem C3_batched_reconciliation_amended :
    (∀ missing_fields : List String,
      ∀ b ∈ simpleRagCalls missing_fields, b.length ≤ 10) ∧
    (∀ missing_fields : List String, missing_fields.length = 25 →
      (simpleRagCalls missing_fields).length = 3) ∧
    (∀ missing_fields : List String,
      (simpleRagCalls missing_fields).flatten = missing_fields) ∧
    (∀ (missing_fields : List String) (ragResult : List String → Fields)
        (extraction_result : Fields),
      (∀ b ∈ simpleRagCalls missing_fields,
        specRagResultShaped (ragResult b) = true) →
      ∀ (b : List String) (sec fld : String) (af : Fields),
        b ∈ simpleRagCalls missing_fields →
        getKey (ragResult b) sec = some (.obj af) → fld ∈ keys af →
        hasLeaf (simpleFinalData extraction_result ragResult missing_fields)
          sec fld) ∧
    (∀ missing_fields : List String,
      parallelRagCalls missing_fields = [missing_fields]) := by
  refine ⟨?_, ?_, ?_, ?_, fun _ => rfl⟩
  · intro missing b hb
    simp only [simpleRagCalls, batch_fields, List.mem_map] at hb
    obtain ⟨i, _, hi⟩ := hb
    rw [← hi]
    exact List.length_take_le 10 _
  · intro missing h25
    simp [simpleRagCalls, batch_fields, h25]
  · intro missing
    exact batch_fields_ten_flatten missing.length missing le_rfl
  · intro missing ragResult er hsh b sec fld af hb hg hf
    have hacc : hasLeaf (simpleAllRagResults ragResult missing) sec fld :=
      hasLeaf_rag_foldl_of_batch ragResult _ _ hsh hb hg hf
    obtain ⟨sf, hgs, hfs⟩ := hacc
    have hnd : (keys (simpleAllRagResults ragResult missing)).Nodup :=
      keys_nodup_rag_foldl ragResult _ _ (by simp [keys])
    exact hasLeaf_deep_update_of_overlay hnd hgs hfs

/-- A query-service stand-in answering every batch with one fixed
section containing one field, shaped as the spec describes. -/
def constOracle : List String → Fields :=
  fun _ =>
    .fcons "life_insurance" (.obj (.fcons "benefit_amount" (.prim "v") .nil)) .nil

theorem C3_batched_reconciliation_amended_witness :
    (simpleRagCalls fields25).length = 3 ∧
    hasLeaf (simpleFinalData .nil constOracle fields25)
      "life_insurance" "benefit_amount" :=
  ⟨C3_batched_reconciliation_amended.2.1 fields25 (by simp [fields25]),
   C3_batched_reconciliation_amended.2.2.2.1 fields25 constOracle .nil
     (fun b _ => rfl) (fields25.take 10) "life_insurance" "benefit_amount"
     (.fcons "benefit_amount" (.prim "v") .nil)
     (by rw [simpleRagCalls, batch_fields_ten_cons fields25 (by simp [fields25])]
         exact List.mem_cons_self _ _)
     rfl (by simp [keys])⟩

/-! ### Claims C5, C6, C7: the `PipelineIngestComponent` writer stage -/

/-- The constant `PipelineIngestComponent.NODE_FLUSH_COUNT` (line 782). -/
def NODE_FLUSH_COUNT : Nat := 5000

/-- A `node_q` item as consumed by `_write_nodes` (lines 884-898): a
tagged command `("process", file_name, documents, nodes)`, `("flush",
...)` or `("quit", ...)`.  Documents and nodes are abstracted to
identifiers. -/
inductive WriteCmd where
  | process (file_name : String) (documents : List Nat) (nodes : List Nat)
  | flush
  | quit
deriving Repr, DecidableEq

/-- How far one `_save_docs` attempt (lines 857-877) gets before its
`try` block raises: everything succeeds, or the exception comes from
`insert_nodes`, from `set_document_hash`, or from `_save_index`. -/
inductive FlushOutcome where
  | ok
  | failAtInsert
  | failAtHash
  | failAtPersist
deriving Repr, DecidableEq

/-- The writer thread's state: the three accumulator stacks of
`_write_nodes` (lines 881-883), the observable index effects (nodes
inserted, document hashes recorded, persist calls), and a counter of
`_save_docs` attempts. -/
structure WriterState where
  node_stack : List Nat
  doc_stack : List Nat
  file_stack : List String
  inserted : List Nat
  hashed : List Nat
  persistCount : Nat
  saveAttempts : Nat
deriving Repr, DecidableEq

def initWriterState : WriterState := ⟨[], [], [], [], [], 0, 0⟩

/-- The method `_save_docs(files, documents, nodes)` (lines 857-877): inside `try`,
insert the accumulated nodes, record each document's hash, persist the
index; any exception is only logged; the `finally` clause clears all
three stacks whatever happened. -/
def save_docs (outcome : FlushOutcome) (s : WriterState) : WriterState :=
  let afterTry :=
    match outcome with
    | .failAtInsert => s
    | .failAtHash => { s with inserted := s.inserted ++ s.node_stack }
    | .failAtPersist => { s with inserted := s.inserted ++ s.node_stack,
                                 hashed := s.hashed ++ s.doc_stack }
    | .ok => { s with inserted := s.inserted ++ s.node_stack,
                      hashed := s.hashed ++ s.doc_stack,
                      persistCount := s.persistCount + 1 }
  { afterTry with node_stack := [], doc_stack := [], file_stack := [],
                  saveAttempts := s.saveAttempts + 1 }

/-- One iteration of the `_write_nodes` loop (lines 884-900): a
`process` command extends the three stacks and flushes exactly when the
accumulated node count has reached `NODE_FLUSH_COUNT`; a `flush` or
`quit` command flushes when the file stack is non-empty.  `outcome`
says how far the flush attempt gets if one happens. -/
def write_step (s : WriterState) (c : WriteCmd) (outcome : FlushOutcome) :
    WriterState :=
  match c with
  | .process fn docs nodes =>
      let s' := { s with node_stack := s.node_stack ++ nodes,
                         doc_stack := s.doc_stack ++ docs,
                         file_stack := s.file_stack ++ [fn] }
      if NODE_FLUSH_COUNT ≤ s'.node_stack.length then save_docs outcome s' else s'
  | .flush => if s.file_stack.isEmpty then s else save_docs outcome s
  | .quit => if s.file_stack.isEmpty then s else save_docs outcome s

/-- The writer loop over a whole command sequence. -/
def write_run (cmds : List (WriteCmd × FlushOutcome)) (s : WriterState) :
    WriterState :=
  cmds.foldl (fun st co => write_step st co.1 co.2) s

theorem save_docs_clears (o : FlushOutcome) (s : WriterState) :
    (save_docs o s).node_stack = [] ∧ (save_docs o s).doc_stack = [] ∧
    (save_docs o s).file_stack = [] ∧
    (save_docs o s).saveAttempts = s.saveAttempts + 1 := by
  cases o <;> simp [save_docs]

theorem write_step_process_below (s : WriterState) (fn : String)
    (docs nodes : List Nat) (o : FlushOutcome)
    (h : s.node_stack.length + nodes.length < NODE_FLUSH_COUNT) :
    write_step s (.process fn docs nodes) o =
      { s with node_stack := s.node_stack ++ nodes,
               doc_stack := s.doc_stack ++ docs,
               file_stack := s.file_stack ++ [fn] } := by
  have hc : ¬ NODE_FLUSH_COUNT ≤ s.node_stack.length + nodes.length := by omega
  simp [write_step, hc]

theorem write_step_process_reach (s : WriterState) (fn : String)
    (docs nodes : List Nat) (o : FlushOutcome)
    (h : NODE_FLUSH_COUNT ≤ s.node_stack.length + nodes.length) :
    write_step s (.process fn docs nodes) o =
      save_docs o { s with node_stack := s.node_stack ++ nodes,
                           doc_stack := s.doc_stack ++ docs,
                           file_stack := s.file_stack ++ [fn] } := by
  simp [write_step, h]

theorem write_run_all_below :
    ∀ (pcmds : List (String × List Nat × List Nat)) (s : WriterState),
      s.node_stack.length +
          (pcmds.map (fun p => p.2.2.length)).sum < NODE_FLUSH_COUNT →
      (write_run (pcmds.map
          (fun p => (WriteCmd.process p.1 p.2.1 p.2.2, FlushOutcome.ok)))
          s).saveAttempts = s.saveAttempts ∧
      (write_run (pcmds.map
          (fun p => (WriteCmd.process p.1 p.2.1 p.2.2, FlushOutcome.ok)))
          s).node_stack.length =
        s.node_stack.length + (pcmds.map (fun p => p.2.2.length)).sum := by
  intro pcmds
  induction pcmds with
  | nil => intro s _; simp [write_run]
  | cons p rest ih =>
      intro s h
      simp only [List.map_cons, List.sum_cons] at h
      have hbelow : s.node_stack.length + p.2.2.length < NODE_FLUSH_COUNT := by
        omega
      simp only [List.map_cons, write_run, List.foldl_cons]
      rw [show write_step s (WriteCmd.process p.1 p.2.1 p.2.2) FlushOutcome.ok =
          { s with node_stack := s.node_stack ++ p.2.2,
                   doc_stack := s.doc_stack ++ p.2.1,
                   file_stack := s.file_stack ++ [p.1] } from
        write_step_process_below s p.1 p.2.1 p.2.2 FlushOutcome.ok hbelow]
      have := ih { s with node_stack := s.node_stack ++ p.2.2,
                          doc_stack := s.doc_stack ++ p.2.1,
                          file_stack := s.file_stack ++ [p.1] }
        (by simp only [List.length_append]; omega)
      simp only [write_run] at this
      simp only [List.length_append] at this
      obtain ⟨h1, h2⟩ := this
      refine ⟨h1, ?_⟩
      simp only [List.map_cons, List.sum_cons]
      omega

/-- C5: in the `PipelineIngestComponent` writer loop, a `process`
command whose nodes bring the accumulated count to `NODE_FLUSH_COUNT`
(5000) or beyond triggers exactly one flush attempt, emptying the node
accumulator before anything further accumulates; a `process` command
that stays strictly below the threshold triggers none and only extends
the accumulator; and any sequence of `process` commands whose total node
count stays below the threshold triggers zero flushes. -/
theorem C5_flush_threshold :
    (∀ (s : WriterState) (fn : String) (docs nodes : List Nat) (o : FlushOutcome),
      NODE_FLUSH_COUNT ≤ s.node_stack.length + nodes.length →
        (write_step s (.process fn docs nodes) o).saveAttempts =
          s.saveAttempts + 1 ∧
        (write_step s (.process fn docs nodes) o).node_stack = []) ∧
    (∀ (s : WriterState) (fn : String) (docs nodes : List Nat) (o : FlushOutcome),
      s.node_stack.length + nodes.length < NODE_FLUSH_COUNT →
        (write_step s (.process fn docs nodes) o).saveAttempts = s.saveAttempts ∧
        (write_step s (.process fn docs nodes) o).node_stack =
          s.node_stack ++ nodes) ∧
    (∀ pcmds : List (String × List Nat × List Nat),
      (pcmds.map (fun p => p.2.2.length)).sum < NODE_FLUSH_COUNT →
      (write_run (pcmds.map
          (fun p => (WriteCmd.process p.1 p.2.1 p.2.2, FlushOutcome.ok)))
          initWriterState).saveAttempts = 0) := by
  refine ⟨?_, ?_, ?_⟩
  · intro s fn docs nodes o h
    rw [write_step_process_reach s fn docs nodes o h]
    have hc := save_docs_clears o { s with node_stack := s.node_stack ++ nodes,
                                           doc_stack := s.doc_stack ++ docs,
                                           file_stack := s.file_stack ++ [fn] }
    exact ⟨hc.2.2.2, hc.1⟩
  · intro s fn docs nodes o h
    rw [write_step_process_below s fn docs nodes o h]
    exact ⟨rfl, rfl⟩
  · intro pcmds h
    exact (write_run_all_below pcmds initWriterState
      (by simpa [initWriterState] using h)).1

/-- A writer state one node short of the flush threshold. -/
def c5State : WriterState := ⟨List.range 4999, [], [], [], [], 0, 0⟩

theorem C5_flush_threshold_witness :
    NODE_FLUSH_COUNT ≤ c5State.node_stack.length + [(0 : Nat)].length ∧
    (write_step c5State (.process "f" [] [0]) .ok).saveAttempts =
      c5State.saveAttempts + 1 ∧
    (write_step c5State (.process "f" [] [0]) .ok).node_stack = [] := by
  have hle : NODE_FLUSH_COUNT ≤ c5State.node_stack.length + [(0 : Nat)].length := by
    simp only [c5State, List.length_range, List.length_singleton, NODE_FLUSH_COUNT]
    omega
  have hstep := C5_flush_threshold.1 c5State "f" [] [0] .ok hle
  exact ⟨hle, hstep.1, hstep.2⟩

/-- The full node sequence pushed at the writer by a command list. -/
def fedNodes (cmds : List (WriteCmd × FlushOutcome)) : List Nat :=
  cmds.foldr (fun c acc =>
    match c.1 with
    | .process _ _ ns => ns ++ acc
    | _ => acc) []

theorem inserted_node_stack_sublist_step (s : WriterState) (c : WriteCmd)
    (o : FlushOutcome) :
    List.Sublist ((write_step s c o).inserted ++ (write_step s c o).node_stack)
      (s.inserted ++ s.node_stack ++
        (match c with | .process _ _ ns => ns | _ => [])) := by
  cases c with
  | process fn docs nodes =>
      by_cases h : NODE_FLUSH_COUNT ≤ s.node_stack.length + nodes.length
      · rw [write_step_process_reach s fn docs nodes o h]
        cases o <;> simp [save_docs, List.append_assoc]
      · rw [write_step_process_below s fn docs nodes o (by omega)]
        simp [List.append_assoc]
  | flush =>
      by_cases h : s.file_stack.isEmpty <;>
        cases o <;>
        simp [write_step, h, save_docs, List.append_assoc]
  | quit =>
      by_cases h : s.file_stack.isEmpty <;>
        cases o <;>
        simp [write_step, h, save_docs, List.append_assoc]

theorem inserted_sublist_run :
    ∀ (cmds : List (WriteCmd × FlushOutcome)) (s : WriterState),
      List.Sublist ((write_run cmds s).inserted ++ (write_run cmds s).node_stack)
        (s.inserted ++ s.node_stack ++ fedNodes cmds) := by
  intro cmds
  induction cmds with
  | nil => intro s; simp [write_run, fedNodes]
  | cons c rest ih =>
      intro s
      obtain ⟨c1, c2⟩ := c
      have h1 := ih (write_step s c1 c2)
      have h2 := (inserted_node_stack_sublist_step s c1 c2).append_right
        (fedNodes rest)
      have hrun : write_run ((c1, c2) :: rest) s =
          write_run rest (write_step s c1 c2) := rfl
      rw [hrun]
      refine h1.trans ?_
      cases c1 with
      | process fn docs ns => simpa [fedNodes, List.append_assoc] using h2
      | flush => simpa [fedNodes, List.append_assoc] using h2
      | quit => simpa [fedNodes, List.append_assoc] using h2

/-- C6: every `_save_docs` attempt — succeeding or raising at any of its
three steps — leaves all three accumulator stacks empty; consequently,
over any writer run fed pairwise-distinct nodes, no node is ever
inserted into the index twice. -/
theorem C6_flush_clears_and_no_double_insert :
    (∀ (o : FlushOutcome) (s : WriterState),
      (save_docs o s).node_stack = [] ∧ (save_docs o s).doc_stack = [] ∧
      (save_docs o s).file_stack = []) ∧
    (∀ cmds : List (WriteCmd × FlushOutcome),
      (fedNodes cmds).Nodup →
      ((write_run cmds initWriterState).inserted).Nodup) := by
  constructor
  · intro o s
    have h := save_docs_clears o s
    exact ⟨h.1, h.2.1, h.2.2.1⟩
  · intro cmds hnd
    have h := inserted_sublist_run cmds initWriterState
    simp only [initWriterState, List.nil_append] at h
    have hboth : ((write_run cmds initWriterState).inserted ++
        (write_run cmds initWriterState).node_stack).Nodup :=
      List.Nodup.sublist h hnd
    exact (List.sublist_append_left _ _).nodup hboth

/-- A short writer run: one full batch, an explicit flush that fails at
the index insert, and one more batch. -/
def c6Cmds : List (WriteCmd × FlushOutcome) :=
  [(.process "f" [0] [1, 2], .ok), (.flush, .failAtInsert),
   (.process "g" [1] [3], .ok)]

theorem C6_flush_clears_and_no_double_insert_witness :
    (save_docs .failAtPersist
        { initWriterState with node_stack := [7], doc_stack := [8],
                               file_stack := ["h"] }).node_stack = [] ∧
    ((write_run c6Cmds initWriterState).inserted).Nodup :=
  ⟨(C6_flush_clears_and_no_double_insert.1 .failAtPersist
      { initWriterState with node_stack := [7], doc_stack := [8],
                             file_stack := ["h"] }).1,
   C6_flush_clears_and_no_double_insert.2 c6Cmds (by decide)⟩

/-- Queue and semaphore sizes from `PipelineIngestComponent.__init__`
(lines 810-819): the admission semaphore is sized to the worker count
(`multiprocessing.Semaphore(self.count_workers)`), while the queues have
the fixed capacities `doc_q = Queue(20)` and `node_q = Queue(40)`. -/
def doc_semaphore_size (count_workers : Nat) : Nat := count_workers

def doc_q_capacity (count_workers : Nat) : Nat := 20

def node_q_capacity (count_workers : Nat) : Nat := 40

/-- C7 counterexample: with 2 configured workers, `doc_q`'s capacity is
20, not 2 — the bounded queue is not sized to the worker count. -/
theorem C7_counterexample :
    ¬ (doc_q_capacity 2 = 2 ∧ doc_q_capacity 2 < node_q_capacity 2) := by
  decide

/-- C7 (amended): for every configured worker count, `doc_q` has the
fixed capacity 20 and `node_q` the fixed capacity 40 — strictly larger
than `doc_q`'s — while it is the admission semaphore, not `doc_q`, that
is sized to the worker count. -/
theorem C7_queue_capacities_amended (count_workers : Nat) :
    doc_q_capacity count_workers = 20 ∧
    node_q_capacity count_workers = 40 ∧
    doc_q_capacity count_workers < node_q_capacity count_workers ∧
    doc_semaphore_size count_workers = count_workers :=
  ⟨rfl, rfl, by norm_num [doc_q_capacity, node_q_capacity], rfl⟩

/-! ### Claim C1: phase writes of the background save task -/

/-- Document lifecycle phases written through
`DocumentTypeService.update_document_phase`. -/
inductive Phase where
  | parsing
  | extraction
  | embedding
  | rag
  | completed
  | error
deriving Repr, DecidableEq

/-- How the reconciliation block of `save_task` (the inner
`try ... except` under `self._rag_thread_lock`) ends: reaching the
`update_phase(doc_id, "completed")` at the end of the inner `try`;
leaving early through one of its `return` statements (missing file name
or document type, absent result file, empty result); or raising, which
the inner `except` catches and answers with its own `completed` write. -/
inductive ReconOutcome where
  | success
  | earlyReturn
  | innerFault
deriving Repr, DecidableEq

/-- Phase writes contributed by the reconciliation block. -/
def reconWrites : ReconOutcome → List Phase
  | .success => [.completed]
  | .earlyReturn => []
  | .innerFault => [.completed]

/-- One execution of `save_task` (`SimpleIngestComponent` lines 219-333
and `ParallelizedIngestComponent` lines 599-706 have the identical
phase-write structure).  `outerFault pre` is a run whose outer `try`
raises after the phase writes `pre` (for a fault in `parse_documents`,
`pre = [.parsing]`): the `except` then writes `error` and the `finally`
writes `completed`.  `completes tw recon` is a run whose outer `try`
finishes: `parsing` is written, the extraction and embedding threads
write `tw` (their interleaving of `extraction`/`embedding` updates),
then `rag`, then the reconciliation block's `reconWrites recon`, and the
`finally` writes `completed`. -/
inductive SaveTaskRun where
  | outerFault (writesBefore : List Phase)
  | completes (threadWrites : List Phase) (recon : ReconOutcome)

/-- The sequence of phases `save_task` writes for its document id. -/
def save_task_phase_trace : SaveTaskRun → List Phase
  | .outerFault pre => pre ++ [.error, .completed]
  | .completes tw recon =>
      [Phase.parsing] ++ tw ++ [Phase.rag] ++ reconWrites recon ++ [Phase.completed]

theorem mem_of_getLast?_eq_some {α : Type} {l : List α} {a : α}
    (h : l.getLast? = some a) : a ∈ l := by
  obtain ⟨hne, heq⟩ := List.mem_getLast?_eq_getLast (Option.mem_def.mpr h)
  rw [heq]
  exact List.getLast_mem hne

theorem completed_mem_suffix {l pre suf : List Phase}
    (hlast : l.getLast? = some Phase.completed)
    (heq : l = pre ++ Phase.error :: suf) : Phase.completed ∈ suf := by
  subst heq
  rw [List.getLast?_append_cons] at hlast
  cases suf with
  | nil => simp at hlast
  | cons x xs =>
      rw [List.getLast?_cons_cons] at hlast
      exact mem_of_getLast?_eq_some hlast

/-- C1: every background save task run ends with a `completed` phase
write — the `finally` guarantee — so the last phase written is never
`error`, and whenever `error` was written a `completed` write follows
it in the same run. -/
theorem C1_error_overwritten_by_completed (run : SaveTaskRun) :
    (save_task_phase_trace run).getLast? = some Phase.completed ∧
    (∀ pre suf, save_task_phase_trace run = pre ++ Phase.error :: suf →
      Phase.completed ∈ suf) := by
  have hlast : (save_task_phase_trace run).getLast? = some Phase.completed := by
    cases run with
    | outerFault pre =>
        show (pre ++ [Phase.error, Phase.completed]).getLast? = some Phase.completed
        rw [List.getLast?_append_cons]
        rfl
    | completes tw recon =>
        show ([Phase.parsing] ++ tw ++ [Phase.rag] ++ reconWrites recon ++
          [Phase.completed]).getLast? = some Phase.completed
        rw [List.getLast?_concat]
  exact ⟨hlast, fun pre suf heq => completed_mem_suffix hlast heq⟩

theorem C1_error_overwritten_by_completed_witness :
    (save_task_phase_trace (.outerFault [Phase.parsing])).getLast? =
      some Phase.completed ∧ Phase.completed ∈ [Phase.completed] :=
  ⟨(C1_error_overwritten_by_completed (.outerFault [Phase.parsing])).1,
   (C1_error_overwritten_by_completed (.outerFault [Phase.parsing])).2
     [Phase.parsing] [Phase.completed] rfl⟩

/-! ### Claim C8: `ingest` on the extraction-enabled orchestrators -/

/-- Observable actions of `ingest` and its background processing. -/
inductive IngestAction where
  | storeOriginalFile (file_name : String)
  | startBackgroundThread (doc_id : String)
  | parseFile (file_name : String)
  | extractDocument (doc_id : String)
  | insertNodes
deriving Repr, DecidableEq

/-- The stub `Document` returned by `ingest`: empty text plus the
`file_name`/`doc_id` metadata entries. -/
structure StubDocument where
  text : String
  meta_file_name : String
  meta_doc_id : String
deriving Repr, DecidableEq

/-- The method `SimpleIngestComponent.ingest` (lines 132-141): store the original
file, draw a fresh UUID as `doc_id`, build the stub document
`Document(text="", metadata=...)`, start `_background_save_docs`'s
thread, and return the one-element list.  The first component lists the
synchronous actions taken before `ingest` returns; parsing, extraction
and embedding happen only on the background thread. -/
def simple_ingest (file_name : String) (fresh_doc_id : String) :
    List IngestAction × List StubDocument :=
  ([.storeOriginalFile file_name, .startBackgroundThread fresh_doc_id],
   [{ text := "", meta_file_name := file_name, meta_doc_id := fresh_doc_id }])

/-- The method `ParallelizedIngestComponent.ingest` (lines 494-520): identical to
`simple_ingest` when `self.extraction_component` is configured;
otherwise the file is parsed in the worker pool and saved synchronously
through `_save_docs` (`parsedDocs` stands for the external parser
output). -/
def parallel_ingest (extraction_enabled : Bool)
    (parsedDocs : List StubDocument) (file_name : String)
    (fresh_doc_id : String) : List IngestAction × List StubDocument :=
  if extraction_enabled then
    ([.storeOriginalFile file_name, .startBackgroundThread fresh_doc_id],
     [{ text := "", meta_file_name := file_name, meta_doc_id := fresh_doc_id }])
  else
    ([.storeOriginalFile file_name, .parseFile file_name, .insertNodes],
     parsedDocs)

/-- C8: on an extraction-enabled orchestrator, `ingest` stores the
original file, returns immediately exactly one stub document with empty
text and the file name and freshly drawn id as metadata, schedules the
background thread — and its synchronous actions contain no parsing,
extraction or embedding. -/
theorem C8_ingest_returns_stub (file_name fresh_doc_id : String)
    (parsedDocs : List StubDocument) :
    (simple_ingest file_name fresh_doc_id).2 =
      [{ text := "", meta_file_name := file_name,
         meta_doc_id := fresh_doc_id }] ∧
    parallel_ingest true parsedDocs file_name fresh_doc_id =
      simple_ingest file_name fresh_doc_id ∧
    IngestAction.storeOriginalFile file_name ∈
      (simple_ingest file_name fresh_doc_id).1 ∧
    IngestAction.startBackgroundThread fresh_doc_id ∈
      (simple_ingest file_name fresh_doc_id).1 ∧
    (∀ a ∈ (simple_ingest file_name fresh_doc_id).1,
      a = .storeOriginalFile file_name ∨
      a = .startBackgroundThread fresh_doc_id) := by
  refine ⟨rfl, rfl, by simp [simple_ingest], by simp [simple_ingest], ?_⟩
  intro a ha
  simpa [simple_ingest] using ha

theorem C8_ingest_returns_stub_witness :
    (simple_ingest "policy.pdf" "doc-1").2 =
      [{ text := "", meta_file_name := "policy.pdf",
         meta_doc_id := "doc-1" }] ∧
    (IngestAction.storeOriginalFile "policy.pdf" =
        IngestAction.storeOriginalFile "policy.pdf" ∨
      IngestAction.storeOriginalFile "policy.pdf" =
        IngestAction.startBackgroundThread "doc-1") :=
  ⟨(C8_ingest_returns_stub "policy.pdf" "doc-1" []).1,
   (C8_ingest_returns_stub "policy.pdf" "doc-1" []).2.2.2.2
     (.storeOriginalFile "policy.pdf") (by simp [simple_ingest])⟩

/-! ### Claims C9 and C10: `ExtractionComponent.extract_document` -/

/-- Generic association update, for the persistent extraction store. -/
def setAssoc {α : Type} : List (String × α) → String → α → List (String × α)
  | [], key, v => [(key, v)]
  | (k, w) :: rest, key, v =>
      if k = key then (key, v) :: rest else (k, w) :: setAssoc rest key v

/-- Where `extract_document`'s `try` block raises, if anywhere:
`agentSetupFail` — agent retrieval and creation (`get_agent` falls back
to `create_agent`, which can itself raise, line 95), before any result
write; `extractCallFail` — the `benefit_agent.extract` call (line 112),
before any result write; `resultWriteFail` — during the write of
`result.json` (lines 123-132), after `open(result_path, "w")` has
already truncated the file; `unlinkFail` — in the inner
`finally: os.unlink(temp_path)` (line 147), which runs after the
success path has fully written `result.json` and before the `return`
completes, so its exception reaches the outer `except` with the result
file already persisted.  `noFault` is the success path. -/
inductive ExtractFault where
  | noFault
  | agentSetupFail (msg : String)
  | extractCallFail (msg : String)
  | resultWriteFail (msg : String)
  | unlinkFail (msg : String)
deriving Repr, DecidableEq

/-- The mapping `extract_document` returns; `Option` fields model which
keys the Python dict carries. -/
structure ExtractResponse where
  status : String
  error : Option String
  extraction_id : Option String
  doc_id : Option String
  document_type : String
  file_name : String
  result : Option Val

/-- A complete `result.json` record (lines 123-132). -/
structure StoredResult where
  extraction_id : String
  doc_id : String
  document_type : String
  file_name : String
  status : String
  result : Val
  timestamp : String

/-- The content of a `result.json` file after an attempt touched it: a
complete record, or a truncated file — `open(result_path, "w")`
truncates before `json.dump` writes, so a fault in the middle of the
write leaves a partial json document behind. -/
inductive StoredFile where
  | record (r : StoredResult)
  | truncated

/-- The persistent extraction state under
`local_data_path/extraction_results/<doc_id>/`: the `chunks.json`
written by `_store_extraction_data` before the backend call, and the
`result.json` file. -/
structure ExtractionStore where
  chunksStore : List (String × List String)
  resultStore : List (String × StoredFile)

/-- The error mapping built by `extract_document`'s `except` clause
(lines 149-156): error message, document type, file name and status
`"error"` — no `extraction_id`, `doc_id` or `result` keys. -/
def errorResponse (msg document_type file_name : String) : ExtractResponse :=
  { status := "error", error := some msg, extraction_id := none,
    doc_id := none, document_type := document_type,
    file_name := file_name, result := none }

/-- The helper `_store_extraction_data` (lines 168-186): writes the `chunks.json`
record under the given id before the backend call is attempted. -/
def store_extraction_data (store : ExtractionStore) (doc_id : String)
    (chunks : List String) : ExtractionStore :=
  { store with chunksStore := setAssoc store.chunksStore doc_id chunks }

/-- The method `ExtractionComponent.extract_document` (lines 29-156): convert the
documents to chunks, generate an extraction id, store `chunks.json`
under the document id, get or create the agent, run the extraction,
persist `result.json` and return the completed record; any exception
inside the `try` is caught and answered with the error mapping instead
of being raised.  Faults before the result write (`agentSetupFail`,
`extractCallFail`) leave `result.json` untouched; a fault during the
write (`resultWriteFail`) leaves it truncated because `open("w")`
truncates before `json.dump` runs; a fault in the post-write
`finally: os.unlink` (`unlinkFail`) surfaces as the error mapping even
though the completed record was already durably written.  `chunks`
stands for the converted documents, `extraction_result` for the
backend's output, `extraction_id` and `timestamp` for the drawn UUID and
clock reading. -/
def extract_document (fault : ExtractFault) (chunks : List String)
    (extraction_result : Val) (extraction_id timestamp : String)
    (document_type file_name doc_id : String) (store : ExtractionStore) :
    ExtractResponse × ExtractionStore :=
  match fault with
  | .noFault =>
      ({ status := "completed", error := none,
         extraction_id := some extraction_id, doc_id := some doc_id,
         document_type := document_type, file_name := file_name,
         result := some extraction_result },
       { store_extraction_data store doc_id chunks with
           resultStore := setAssoc
             (store_extraction_data store doc_id chunks).resultStore doc_id
             (.record { extraction_id := extraction_id,
                        doc_id := doc_id,
                        document_type := document_type,
                        file_name := file_name,
                        status := "completed",
                        result := extraction_result,
                        timestamp := timestamp }) })
  | .agentSetupFail msg =>
      (errorResponse msg document_type file_name,
       store_extraction_data store doc_id chunks)
  | .extractCallFail msg =>
      (errorResponse msg document_type file_name,
       store_extraction_data store doc_id chunks)
  | .resultWriteFail msg =>
      (errorResponse msg document_type file_name,
       { store_extraction_data store doc_id chunks with
           resultStore := setAssoc
             (store_extraction_data store doc_id chunks).resultStore doc_id
             .truncated })
  | .unlinkFail msg =>
      (errorResponse msg document_type file_name,
       { store_extraction_data store doc_id chunks with
           resultStore := setAssoc
             (store_extraction_data store doc_id chunks).resultStore doc_id
             (.record { extraction_id := extraction_id,
                        doc_id := doc_id,
                        document_type := document_type,
                        file_name := file_name,
                        status := "completed",
                        result := extraction_result,
                        timestamp := timestamp }) })

/-- C9: `extract_document` is a total function of its fault oracle — it
never raises — and on every backend fault it returns the mapping with
status `"error"` carrying the error message, the document type and the
file name, so a failing extraction branch cannot abort the concurrently
running embedding branch. -/
theorem C9_extract_document_captures_faults (chunks : List String)
    (extraction_result : Val)
    (extraction_id timestamp document_type file_name doc_id : String)
    (store : ExtractionStore) :
    (∀ msg, (extract_document (.agentSetupFail msg) chunks extraction_result
        extraction_id timestamp document_type file_name doc_id store).1 =
      errorResponse msg document_type file_name) ∧
    (∀ msg, (extract_document (.extractCallFail msg) chunks extraction_result
        extraction_id timestamp document_type file_name doc_id store).1 =
      errorResponse msg document_type file_name) ∧
    (∀ msg, (extract_document (.resultWriteFail msg) chunks extraction_result
        extraction_id timestamp document_type file_name doc_id store).1 =
      errorResponse msg document_type file_name) ∧
    (∀ msg, (extract_document (.unlinkFail msg) chunks extraction_result
        extraction_id timestamp document_type file_name doc_id store).1 =
      errorResponse msg document_type file_name) ∧
    (∀ fault, (extract_document fault chunks extraction_result
        extraction_id timestamp document_type file_name doc_id store).1.status
        = "completed" ∨
      (extract_document fault chunks extraction_result
        extraction_id timestamp document_type file_name doc_id store).1.status
        = "error") := by
  refine ⟨fun _ => rfl, fun _ => rfl, fun _ => rfl, fun _ => rfl, ?_⟩
  intro fault
  cases fault with
  | noFault => exact Or.inl rfl
  | agentSetupFail msg => exact Or.inr rfl
  | extractCallFail msg => exact Or.inr rfl
  | resultWriteFail msg => exact Or.inr rfl
  | unlinkFail msg => exact Or.inr rfl

/-- C10 counterexample: a fault in the post-write
`finally: os.unlink(temp_path)` (line 147) makes `extract_document`
return the error mapping although `result.json` — the complete record
with status `"completed"` — was already written for the document id, so
"when any exception occurs ... no result file is written for that
attempt" is false on the code. -/
theorem C10_counterexample :
    (extract_document (.unlinkFail "cleanup failed") ["c"] (.prim "r")
        "eid" "ts" "Benefit" "f.pdf" "d1" ⟨[], []⟩).1.status = "error" ∧
    (extract_document (.unlinkFail "cleanup failed") ["c"] (.prim "r")
        "eid" "ts" "Benefit" "f.pdf" "d1" ⟨[], []⟩).2.resultStore =
      [("d1", .record ⟨"eid", "d1", "Benefit", "f.pdf", "completed",
        .prim "r", "ts"⟩)] ∧
    [("d1", StoredFile.record ⟨"eid", "d1", "Benefit", "f.pdf", "completed",
      .prim "r", "ts"⟩)] ≠
      (⟨[], []⟩ : ExtractionStore).resultStore := by
  refine ⟨rfl, rfl, ?_⟩
  simp

/-- C10 (amended): the complete seven-field `result.json` record with
status `"completed"` is written exactly on the paths that reach the
write — the success path and the path where only the post-write
temp-file cleanup (`os.unlink`) raises, which still returns the error
mapping; a fault before the write (agent setup, extraction call) leaves
the stored result state for the document id unchanged; a fault during
the write leaves a truncated `result.json` (the `open("w")` truncation);
and in every faulting case the returned error mapping carries no
`extraction_id` and no `doc_id` key. -/
theorem C10_result_write_amended (chunks : List String)
    (extraction_result : Val)
    (extraction_id timestamp document_type file_name doc_id : String)
    (store : ExtractionStore) :
    ((extract_document .noFault chunks extraction_result extraction_id
        timestamp document_type file_name doc_id store).2.resultStore =
      setAssoc store.resultStore doc_id
        (.record { extraction_id := extraction_id,
                   doc_id := doc_id,
                   document_type := document_type,
                   file_name := file_name,
                   status := "completed",
                   result := extraction_result,
                   timestamp := timestamp }) ∧
     (extract_document .noFault chunks extraction_result extraction_id
        timestamp document_type file_name doc_id store).1.status =
       "completed") ∧
    (∀ msg,
      (extract_document (.agentSetupFail msg) chunks extraction_result
        extraction_id timestamp document_type file_name doc_id
        store).2.resultStore = store.resultStore ∧
      (extract_document (.agentSetupFail msg) chunks extraction_result
        extraction_id timestamp document_type file_name doc_id
        store).1.extraction_id = none ∧
      (extract_document (.agentSetupFail msg) chunks extraction_result
        extraction_id timestamp document_type file_name doc_id
        store).1.doc_id = none) ∧
    (∀ msg,
      (extract_document (.extractCallFail msg) chunks extraction_result
        extraction_id timestamp document_type file_name doc_id
        store).2.resultStore = store.resultStore ∧
      (extract_document (.extractCallFail msg) chunks extraction_result
        extraction_id timestamp document_type file_name doc_id
        store).1.extraction_id = none ∧
      (extract_document (.extractCallFail msg) chunks extraction_result
        extraction_id timestamp document_type file_name doc_id
        store).1.doc_id = none) ∧
    (∀ msg,
      (extract_document (.resultWriteFail msg) chunks extraction_result
        extraction_id timestamp document_type file_name doc_id
        store).2.resultStore =
        setAssoc store.resultStore doc_id .truncated ∧
      (extract_document (.resultWriteFail msg) chunks extraction_result
        extraction_id timestamp document_type file_name doc_id
        store).1.extraction_id = none ∧
      (extract_document (.resultWriteFail msg) chunks extraction_result
        extraction_id timestamp document_type file_name doc_id
        store).1.doc_id = none) ∧
    (∀ msg,
      (extract_document (.unlinkFail msg) chunks extraction_result
        extraction_id timestamp document_type file_name doc_id
        store).2.resultStore =
        setAssoc store.resultStore doc_id
          (.record { extraction_id := extraction_id,
                     doc_id := doc_id,
                     document_type := document_type,
                     file_name := file_name,
                     status := "completed",
                     result := extraction_result,
                     timestamp := timestamp }) ∧
      (extract_document (.unlinkFail msg) chunks extraction_result
        extraction_id timestamp document_type file_name doc_id
        store).1.status = "error" ∧
      (extract_document (.unlinkFail msg) chunks extraction_result
        extraction_id timestamp document_type file_name doc_id
        store).1.extraction_id = none ∧
      (extract_document (.unlinkFail msg) chunks extraction_result
        extraction_id timestamp document_type file_name doc_id
        store).1.doc_id = none) :=
  ⟨⟨rfl, rfl⟩, fun _ => ⟨rfl, rfl, rfl⟩, fun _ => ⟨rfl, rfl, rfl⟩,
   fun _ => ⟨rfl, rfl, rfl⟩, fun _ => ⟨rfl, rfl, rfl, rfl⟩⟩

end BridgewellGpt
